import Mathlib

/-!
Verification of the core of `bozeklab/part_detection` against its
natural-language specification.

The development shallowly embeds the three algorithmic pieces of the
repository:

* `lib.landmark_coordinates` — weighted-centroid ("soft-argmax")
  extraction from a batch of attention maps;
* `lib.rigid_transform` — forward / inverse rigid affine image
  transformation built on `torchvision.transforms.functional.affine`;
* `datasets.WhaleDataset` / `datasets.WhaleTripletDataset` — the
  label-indexed triplet sampler and the train/val/no_set label split.

Tensor entries are modelled as rationals; the single place where IEEE
float semantics is observable (division by a zero mass) is modelled by
`Option ℚ`, with `none` standing for a non-finite float (NaN/Inf),
which torch produces silently instead of raising an error.
-/

namespace PartDetection

/-- Value produced by a torch floating-point division in our fragment:
`none` stands for a non-finite float (NaN or ±Inf). -/
abbrev TVal := Option ℚ

/-- Torch float division: dividing by zero does not raise, it produces a
non-finite value (NaN when the numerator is also 0, ±Inf otherwise). -/
def fdiv (x y : ℚ) : TVal :=
  if y = 0 then none else some (x / y)

/-- A batch of attention maps, shape `(B, P, H, W)` = (batch, part,
dim-2, dim-3), entries indexed as `val b p i j` with `i` along dimension
2 and `j` along dimension 3. -/
structure AttnMaps where
  B : ℕ
  P : ℕ
  H : ℕ
  W : ℕ
  val : ℕ → ℕ → ℕ → ℕ → ℚ

/-- `grid_x` from `torch.meshgrid(arange(maps.shape[2]), arange(maps.shape[3]))`
(default 'ij' indexing): `grid_x[i][j] = i`, the dimension-2 index. -/
def grid_x (i _j : ℕ) : ℕ := i

/-- `grid_y` from the same `torch.meshgrid` call: `grid_y[i][j] = j`,
the dimension-3 index. -/
def grid_y (_i j : ℕ) : ℕ := j

/-- `map_sums = maps.sum(3).sum(2)`: total mass of channel `(b, p)`. -/
def map_sums (m : AttnMaps) (b p : ℕ) : ℚ :=
  ∑ i ∈ Finset.range m.H, ∑ j ∈ Finset.range m.W, m.val b p i j

/-- `loc_x = (grid_x * maps).sum(3).sum(2) / map_sums`. -/
def loc_x (m : AttnMaps) (b p : ℕ) : TVal :=
  fdiv (∑ i ∈ Finset.range m.H, ∑ j ∈ Finset.range m.W,
          (grid_x i j : ℚ) * m.val b p i j)
    (map_sums m b p)

/-- `loc_y = (grid_y * maps).sum(3).sum(2) / map_sums`. -/
def loc_y (m : AttnMaps) (b p : ℕ) : TVal :=
  fdiv (∑ i ∈ Finset.range m.H, ∑ j ∈ Finset.range m.W,
          (grid_y i j : ℚ) * m.val b p i j)
    (map_sums m b p)

/-- Error taxonomy the specification postulates for centroid extraction. -/
inductive CentroidError where
  | emptyMass
  deriving DecidableEq

/-- `lib.landmark_coordinates`: the source contains no guard and no
`raise`; the divisions are performed unconditionally and torch float
division by zero yields NaN/Inf silently, so the call returns `.ok` on
every input (the `Except` type records that no error path exists). -/
def landmark_coordinates (m : AttnMaps) :
    Except CentroidError ((ℕ → ℕ → TVal) × (ℕ → ℕ → TVal)) :=
  .ok (loc_x m, loc_y m)

/-- Sum over the grid of a function supported on the single cell
`(r0, c0)`. -/
lemma sum_ite_cell {H W r0 c0 : ℕ} (hr : r0 < H) (hc : c0 < W)
    (g : ℕ → ℕ → ℚ) :
    (∑ i ∈ Finset.range H, ∑ j ∈ Finset.range W,
        (if i = r0 ∧ j = c0 then g i j else 0)) = g r0 c0 := by
  have hinner : ∀ i, (∑ j ∈ Finset.range W,
      (if i = r0 ∧ j = c0 then g i j else 0)) =
      (if i = r0 then g i c0 else 0) := by
    intro i
    by_cases hi : i = r0
    · subst hi
      simp [Finset.sum_ite_eq' (Finset.range W) c0, Finset.mem_range.mpr hc]
    · simp [hi]
  rw [Finset.sum_congr rfl fun i _ => hinner i]
  simp [Finset.sum_ite_eq' (Finset.range H) r0, Finset.mem_range.mpr hr]

/-- Concrete map used for claim C1: shape (1,1,2,3), all mass on the
grid cell (r0, c0) = (1, 2). -/
def C1map : AttnMaps :=
  ⟨1, 1, 2, 3, fun _ _ i j => if i = 1 ∧ j = 2 then 1 else 0⟩

/-- C1, counterexample: on a (1,1,2,3) batch with all mass on grid cell
(r0, c0) = (1, 2), the claim predicts the returned pair is
(c0, r0) = (2, 1); the code returns loc_x = 1 = r0 (row average) and
loc_y = 2 = c0 (column average), so the claim fails at this input. -/
theorem C1_counterexample :
    ¬ (loc_x C1map 0 0 = some 2 ∧ loc_y C1map 0 0 = some 1) := by
  norm_num [loc_x, loc_y, fdiv, map_sums, C1map, grid_x, grid_y,
    Finset.sum_range_succ]

/-- C1 (amended): for an attention channel whose mass is concentrated on
the single grid cell `(r0, c0)` with weight `w ≠ 0`, `landmark_coordinates`
returns `loc_x = r0` (the attention-weighted average of the 0-based
dimension-2 = row coordinates) and `loc_y = c0` (the weighted average of
the dimension-3 = column coordinates): the pair is `(r0, c0)`,
not `(c0, r0)`. -/
theorem C1_concentrated_mass_centroid (m : AttnMaps) (b p r0 c0 : ℕ) (w : ℚ)
    (hr : r0 < m.H) (hc : c0 < m.W) (hw : w ≠ 0)
    (hval : ∀ i j, m.val b p i j = if i = r0 ∧ j = c0 then w else 0) :
    loc_x m b p = some r0 ∧ loc_y m b p = some c0 := by
  have hmass : map_sums m b p = w := by
    have := sum_ite_cell hr hc (fun _ _ => w)
    simpa [map_sums, hval] using this
  have hx : (∑ i ∈ Finset.range m.H, ∑ j ∈ Finset.range m.W,
      (grid_x i j : ℚ) * m.val b p i j) = (r0 : ℚ) * w := by
    have := sum_ite_cell hr hc (fun i _ => (i : ℚ) * w)
    simpa [grid_x, hval, mul_ite, mul_zero] using this
  have hy : (∑ i ∈ Finset.range m.H, ∑ j ∈ Finset.range m.W,
      (grid_y i j : ℚ) * m.val b p i j) = (c0 : ℚ) * w := by
    have := sum_ite_cell hr hc (fun _ j => (j : ℚ) * w)
    simpa [grid_y, hval, mul_ite, mul_zero] using this
  constructor
  · rw [loc_x, hx, fdiv, hmass]
    simp [hw, mul_div_assoc, div_self]
  · rw [loc_y, hy, fdiv, hmass]
    simp [hw, mul_div_assoc, div_self]

/-- C1, witness map: shape (1,1,2,3), weight 1/2 on cell (1, 2). -/
def C1wit : AttnMaps :=
  ⟨1, 1, 2, 3, fun _ _ i j => if i = 1 ∧ j = 2 then 1/2 else 0⟩

/-- C1, witness: the amended theorem applied to a concrete concentrated
map. -/
theorem C1_concentrated_mass_centroid_witness :
    loc_x C1wit 0 0 = some 1 ∧ loc_y C1wit 0 0 = some 2 := by
  have h := C1_concentrated_mass_centroid C1wit 0 0 1 2 (1/2)
    (by decide) (by decide) (by norm_num) (fun i j => rfl)
  simpa using h

/-- Concrete all-zero map used for claim C4: shape (1,1,2,2), total mass
exactly zero. -/
def C4map : AttnMaps := ⟨1, 1, 2, 2, fun _ _ _ _ => 0⟩

/-- C4, counterexample: on an all-zero channel (total mass exactly 0)
the call does not fail: it returns `.ok` and the centroid coordinates
are the non-finite float NaN (modelled `none`), silently. -/
theorem C4_counterexample :
    map_sums C4map 0 0 = 0 ∧
    landmark_coordinates C4map = .ok (loc_x C4map, loc_y C4map) ∧
    loc_x C4map 0 0 = none ∧ loc_y C4map 0 0 = none := by
  refine ⟨?_, rfl, ?_, ?_⟩ <;>
    simp [map_sums, loc_x, loc_y, fdiv, C4map, Finset.sum_range_succ]

/-- C4 (amended): when a channel's total mass is exactly zero the call
still returns normally (`.ok`); the division is performed anyway and the
centroid coordinates of that channel are non-finite (NaN), i.e. the
degenerate case is silently propagated as an invalid value, not surfaced
as an error. -/
theorem C4_zero_mass_silent_nan (m : AttnMaps) (b p : ℕ)
    (h : map_sums m b p = 0) :
    landmark_coordinates m = .ok (loc_x m, loc_y m) ∧
    loc_x m b p = none ∧ loc_y m b p = none := by
  refine ⟨rfl, ?_, ?_⟩ <;> simp [loc_x, loc_y, fdiv, h]

/-- C4, witness: the amended theorem applied to the concrete all-zero
map. -/
theorem C4_zero_mass_silent_nan_witness :
    landmark_coordinates C4map = .ok (loc_x C4map, loc_y C4map) ∧
    loc_x C4map 0 0 = none ∧ loc_y C4map 0 0 = none :=
  C4_zero_mass_silent_nan C4map 0 0
    (by simp [map_sums, C4map, Finset.sum_range_succ])

/-- Concrete map used for claim C5: shape (1,1,1,3) (H = 1, W = 3),
nonnegative entries, all mass on cell (0, 2). -/
def C5map : AttnMaps :=
  ⟨1, 1, 1, 3, fun _ _ i j => if i = 0 ∧ j = 2 then 1 else 0⟩

/-- C5, counterexample: on a (1,1,1,3) map (height H = 1, width W = 3,
nonnegative, nonzero mass) the code returns loc_y = 2, and the claimed
bound `y < height` fails (2 < 1 is false); the true bounds are
`loc_x < H` and `loc_y < W`. -/
theorem C5_counterexample :
    C5map.H = 1 ∧ loc_y C5map 0 0 = some 2 ∧ ¬ ((2 : ℚ) < (C5map.H : ℚ)) := by
  refine ⟨rfl, ?_, ?_⟩
  · norm_num [loc_y, fdiv, map_sums, C5map, grid_y, Finset.sum_range_succ]
  · show ¬ ((2 : ℚ) < ((1 : ℕ) : ℚ))
    norm_num

/-- C5 (amended): for nonnegative attention values with nonzero channel
mass, the centroid coordinates are finite and each is bounded by the
extent of its own axis: `0 ≤ loc_x < H` (the size of dimension 2) and
`0 ≤ loc_y < W` (the size of dimension 3). -/
theorem C5_centroid_bounds (m : AttnMaps) (b p : ℕ)
    (hpos : ∀ i j, 0 ≤ m.val b p i j)
    (hmass : map_sums m b p ≠ 0) :
    ∃ x y : ℚ, loc_x m b p = some x ∧ loc_y m b p = some y ∧
      0 ≤ x ∧ x < (m.H : ℚ) ∧ 0 ≤ y ∧ y < (m.W : ℚ) := by
  have hnn : 0 ≤ map_sums m b p := by
    refine Finset.sum_nonneg fun i _ => Finset.sum_nonneg fun j _ => hpos i j
  have hlt : 0 < map_sums m b p := lt_of_le_of_ne hnn (Ne.symm hmass)
  set numx : ℚ := ∑ i ∈ Finset.range m.H, ∑ j ∈ Finset.range m.W,
    (grid_x i j : ℚ) * m.val b p i j with hnumx
  set numy : ℚ := ∑ i ∈ Finset.range m.H, ∑ j ∈ Finset.range m.W,
    (grid_y i j : ℚ) * m.val b p i j with hnumy
  have hxnn : 0 ≤ numx := by
    refine Finset.sum_nonneg fun i _ => Finset.sum_nonneg fun j _ => ?_
    exact mul_nonneg (Nat.cast_nonneg _) (hpos i j)
  have hynn : 0 ≤ numy := by
    refine Finset.sum_nonneg fun i _ => Finset.sum_nonneg fun j _ => ?_
    exact mul_nonneg (Nat.cast_nonneg _) (hpos i j)
  have hxle : numx ≤ ((m.H : ℚ) - 1) * map_sums m b p := by
    rw [map_sums, Finset.mul_sum]
    refine Finset.sum_le_sum fun i hi => ?_
    rw [Finset.mul_sum]
    refine Finset.sum_le_sum fun j _ => ?_
    refine mul_le_mul_of_nonneg_right ?_ (hpos i j)
    have h1 : (i : ℚ) + 1 ≤ (m.H : ℚ) := by
      exact_mod_cast Nat.succ_le_of_lt (Finset.mem_range.mp hi)
    have h2 : (i : ℚ) ≤ (m.H : ℚ) - 1 := by linarith
    simpa [grid_x] using h2
  have hyle : numy ≤ ((m.W : ℚ) - 1) * map_sums m b p := by
    rw [map_sums, Finset.mul_sum]
    refine Finset.sum_le_sum fun i _ => ?_
    rw [Finset.mul_sum]
    refine Finset.sum_le_sum fun j hj => ?_
    refine mul_le_mul_of_nonneg_right ?_ (hpos i j)
    have h1 : (j : ℚ) + 1 ≤ (m.W : ℚ) := by
      exact_mod_cast Nat.succ_le_of_lt (Finset.mem_range.mp hj)
    have h2 : (j : ℚ) ≤ (m.W : ℚ) - 1 := by linarith
    simpa [grid_y] using h2
  refine ⟨numx / map_sums m b p, numy / map_sums m b p, ?_, ?_, ?_, ?_, ?_, ?_⟩
  · rw [loc_x, fdiv, if_neg hmass]
  · rw [loc_y, fdiv, if_neg hmass]
  · exact div_nonneg hxnn hnn
  · have h1 : numx / map_sums m b p ≤ (m.H : ℚ) - 1 :=
      (div_le_iff₀ hlt).mpr hxle
    linarith
  · exact div_nonneg hynn hnn
  · have h1 : numy / map_sums m b p ≤ (m.W : ℚ) - 1 :=
      (div_le_iff₀ hlt).mpr hyle
    linarith

/-- C5, witness map: shape (1,1,2,2), constant weight 1. -/
def C5wit : AttnMaps := ⟨1, 1, 2, 2, fun _ _ _ _ => 1⟩

/-- C5, witness: the amended bounds at a concrete map. -/
theorem C5_centroid_bounds_witness :
    ∃ x y : ℚ, loc_x C5wit 0 0 = some x ∧ loc_y C5wit 0 0 = some y ∧
      0 ≤ x ∧ x < (C5wit.H : ℚ) ∧ 0 ≤ y ∧ y < (C5wit.W : ℚ) :=
  C5_centroid_bounds C5wit 0 0 (fun _ _ => by norm_num [C5wit])
    (by norm_num [map_sums, C5wit, Finset.sum_range_succ])

/-!
Rigid affine transforms (`lib.rigid_transform`).

`torchvision.transforms.functional.affine(img, angle, translate, scale,
shear)` keeps the image center invariant: its content point map is
`T(translate) ∘ C(center) ∘ (scale · R(angle)) ∘ C(center)⁻¹` (torchvision
computes the inverse of exactly this matrix for grid sampling).  Every
call in `rigid_transform` passes `shear = 0`, so the embedding fixes
shear to zero.  Angles are degrees; interpolation only resamples the
moved content, so the geometry is fully captured by the point map.
-/

noncomputable section

/-- Rotation of the plane by `angle` degrees about the origin. -/
def rotP (angle : ℝ) (p : ℝ × ℝ) : ℝ × ℝ :=
  (Real.cos (angle * Real.pi / 180) * p.1 - Real.sin (angle * Real.pi / 180) * p.2,
   Real.sin (angle * Real.pi / 180) * p.1 + Real.cos (angle * Real.pi / 180) * p.2)

/-- Content point map of `torchvision.transforms.functional.affine` with
shear 0: rotate-and-scale about the center `c`, then translate. -/
def affine (c : ℝ × ℝ) (angle : ℝ) (translate : ℝ × ℝ) (scale : ℝ)
    (p : ℝ × ℝ) : ℝ × ℝ :=
  (translate.1 + c.1 + scale * (rotP angle (p.1 - c.1, p.2 - c.2)).1,
   translate.2 + c.2 + scale * (rotP angle (p.1 - c.1, p.2 - c.2)).2)

/-- `lib.rigid_transform` as a point map.  Forward mode: one `affine`
call with the given parameters.  Inverse mode: first
`affine(img, 0, [-t1, -t2], 1, shear=0)`, then
`affine(img, -angle, [0, 0], 1/scale, shear=0)`. -/
def rigid_transform (c : ℝ × ℝ) (angle : ℝ) (translate : ℝ × ℝ)
    (scale : ℝ) (invert : Bool) (p : ℝ × ℝ) : ℝ × ℝ :=
  match invert with
  | true =>
    affine c (-angle) (0, 0) (1 / scale)
      (affine c 0 (-translate.1, -translate.2) 1 p)
  | false =>
    affine c angle translate scale p

/-- The inverse transform exactly as the specification words it: first a
pure translation by `-translate` (angle 0, scale 1), then a rotation by
`-angle` combined with a uniform scale by `1/scale` about the center,
with translation `(0, 0)`. -/
def spec_inverse_two_step (c : ℝ × ℝ) (angle : ℝ) (translate : ℝ × ℝ)
    (scale : ℝ) (p : ℝ × ℝ) : ℝ × ℝ :=
  (c.1 + (1 / scale) *
      (rotP (-angle) (p.1 - translate.1 - c.1, p.2 - translate.2 - c.2)).1,
   c.2 + (1 / scale) *
      (rotP (-angle) (p.1 - translate.1 - c.1, p.2 - translate.2 - c.2)).2)

/-- Rotating by 0 degrees is the identity. -/
lemma rotP_zero (p : ℝ × ℝ) : rotP 0 p = p := by
  simp [rotP]

/-- Rotating by `-a` undoes rotating by `a`. -/
lemma rotP_neg_rotP (a : ℝ) (p : ℝ × ℝ) : rotP (-a) (rotP a p) = p := by
  obtain ⟨x, y⟩ := p
  have hneg : (-a) * Real.pi / 180 = -(a * Real.pi / 180) := by ring
  have h := Real.sin_sq_add_cos_sq (a * Real.pi / 180)
  simp only [rotP, hneg, Real.cos_neg, Real.sin_neg, Prod.mk.injEq]
  constructor
  · linear_combination x * h
  · linear_combination y * h

/-- A zero-angle, unit-scale `affine` call is a pure translation. -/
lemma affine_translation (c t : ℝ × ℝ) (p : ℝ × ℝ) :
    affine c 0 (-t.1, -t.2) 1 p = (p.1 - t.1, p.2 - t.2) := by
  simp only [affine, rotP_zero, Prod.mk.injEq]
  constructor <;> ring

/-- C2: in inverse mode `rigid_transform` is exactly the two-step
composition the specification describes (translation by `-translate`
with angle 0 / scale 1 first, then rotation by `-angle` with scale
`1/scale` and translation (0,0)), and it is not the single affine call
with all parameters negated simultaneously. -/
theorem C2_invert_is_ordered_composition :
    (∀ (c : ℝ × ℝ) (angle : ℝ) (t : ℝ × ℝ) (s : ℝ) (p : ℝ × ℝ),
        rigid_transform c angle t s true p = spec_inverse_two_step c angle t s p)
    ∧ (∃ (c : ℝ × ℝ) (angle : ℝ) (t : ℝ × ℝ) (s : ℝ) (p : ℝ × ℝ),
        rigid_transform c angle t s true p ≠
          affine c (-angle) (-t.1, -t.2) (1 / s) p) := by
  constructor
  · intro c angle t s p
    show affine c (-angle) (0, 0) (1 / s)
        (affine c 0 (-t.1, -t.2) 1 p) = spec_inverse_two_step c angle t s p
    rw [affine_translation]
    simp [spec_inverse_two_step, affine]
  · refine ⟨(0, 0), 90, (1, 0), 1, (0, 0), ?_⟩
    have harg : (-(90 : ℝ)) * Real.pi / 180 = -(Real.pi / 2) := by ring
    have harg2 : (-((90 : ℝ) * Real.pi)) / 180 = -(Real.pi / 2) := by ring
    have hcos : Real.cos (-(Real.pi / 2)) = 0 := by
      rw [Real.cos_neg, Real.cos_pi_div_two]
    have hsin : Real.sin (-(Real.pi / 2)) = -1 := by
      rw [Real.sin_neg, Real.sin_pi_div_two]
    show affine (0, 0) (-(90 : ℝ)) (0, 0) (1 / 1)
        (affine (0, 0) 0 (-(1 : ℝ), -(0 : ℝ)) 1 (0, 0)) ≠ _
    rw [show ((-(1 : ℝ), -(0 : ℝ)) : ℝ × ℝ) =
        (-((1 : ℝ), (0 : ℝ)).1, -((1 : ℝ), (0 : ℝ)).2) from rfl,
      affine_translation]
    norm_num [affine, rotP, harg, harg2, hcos, hsin, Prod.ext_iff]

/-- Sampling map of `torchvision.transforms.functional.affine`
(`_get_inverse_affine_matrix`): the input-plane location whose content
ends up at output pixel `p`; the inverse of the content point map
`affine`. -/
def affine_sample (c : ℝ × ℝ) (angle : ℝ) (translate : ℝ × ℝ)
    (scale : ℝ) (p : ℝ × ℝ) : ℝ × ℝ :=
  (c.1 + (1 / scale) *
      (rotP (-angle) (p.1 - translate.1 - c.1, p.2 - translate.2 - c.2)).1,
   c.2 + (1 / scale) *
      (rotP (-angle) (p.1 - translate.1 - c.1, p.2 - translate.2 - c.2)).2)

/-- Image-level semantics of `visionF.affine`: the output tensor has the
input's size (the canvas); an output pixel takes the input's value at
its sampling location when that location lies on the canvas, and the
fill value 0 otherwise — content mapped off the canvas is cropped and
the vacated region zero-filled.  An image is an idealized function
`ℝ × ℝ → ℝ` (bilinear resampling is abstracted into exact sampling;
the claim's interpolation tolerance covers the difference). -/
def affineImg (canvas : Set (ℝ × ℝ)) (c : ℝ × ℝ) (angle : ℝ)
    (translate : ℝ × ℝ) (scale : ℝ) (img : ℝ × ℝ → ℝ) : ℝ × ℝ → ℝ :=
  fun p => Set.indicator canvas img (affine_sample c angle translate scale p)

/-- `lib.rigid_transform` at the image level, canvas and fill included:
the same call structure as `rigid_transform`, each `visionF.affine` call
rendered by `affineImg`. -/
def rigid_transform_img (canvas : Set (ℝ × ℝ)) (c : ℝ × ℝ) (angle : ℝ)
    (translate : ℝ × ℝ) (scale : ℝ) (invert : Bool)
    (img : ℝ × ℝ → ℝ) : ℝ × ℝ → ℝ :=
  match invert with
  | true =>
    affineImg canvas c (-angle) (0, 0) (1 / scale)
      (affineImg canvas c 0 (-translate.1, -translate.2) 1 img)
  | false =>
    affineImg canvas c angle translate scale img

/-- The pixel canvas `[0, w] × [0, h]` of an image tensor. -/
def canvasRect (w h : ℝ) : Set (ℝ × ℝ) :=
  {q : ℝ × ℝ | 0 ≤ q.1 ∧ q.1 ≤ w ∧ 0 ≤ q.2 ∧ q.2 ≤ h}

/-- The sampling map of a zero-angle, unit-scale call translates back. -/
lemma affine_sample_translation (c t q : ℝ × ℝ) :
    affine_sample c 0 (-t.1, -t.2) 1 q = (q.1 + t.1, q.2 + t.2) := by
  simp only [affine_sample, neg_zero, rotP_zero, Prod.mk.injEq]
  constructor <;> ring

/-- The sampling map of the second inverse call
(`affine(-angle, (0,0), 1/scale)`) is the forward content point map
with the translation removed. -/
lemma affine_sample_second (c : ℝ × ℝ) (angle : ℝ) (t : ℝ × ℝ) (s : ℝ)
    (p : ℝ × ℝ) :
    affine_sample c (-angle) (0, 0) (1 / s) p
      = ((affine c angle t s p).1 - t.1, (affine c angle t s p).2 - t.2) := by
  simp only [affine_sample, affine, neg_neg, one_div_one_div, sub_zero,
    Prod.mk.injEq]
  constructor <;> ring

/-- The sampling map inverts the content point map (`s ≠ 0`). -/
lemma affine_sample_affine (c : ℝ × ℝ) (angle : ℝ) (t : ℝ × ℝ) {s : ℝ}
    (hs : s ≠ 0) (p : ℝ × ℝ) :
    affine_sample c angle t s (affine c angle t s p) = p := by
  obtain ⟨px, py⟩ := p
  obtain ⟨cx, cy⟩ := c
  obtain ⟨tx, ty⟩ := t
  have hneg : (-angle) * Real.pi / 180 = -(angle * Real.pi / 180) := by ring
  have hpy : Real.sin (angle * Real.pi / 180) ^ 2 +
      Real.cos (angle * Real.pi / 180) ^ 2 = 1 := Real.sin_sq_add_cos_sq _
  simp only [affine_sample, affine, rotP, hneg, Real.cos_neg, Real.sin_neg,
    Prod.mk.injEq]
  constructor
  · field_simp
    linear_combination (s * (px - cx)) * hpy
  · field_simp
    linear_combination (s * (py - cy)) * hpy

/-- C6, counterexample: with parameters from the claim's sets (angle 0,
scale 1, translate (10, -5)) on a 256×256 canvas, the forward transform
pushes the content of pixel (250, 0) off the canvas; the inverse brings
back the zero fill, so the round trip returns 0 where the original
constant-1 image has value 1 — a full-magnitude pixel difference, not an
interpolation error. -/
theorem C6_counterexample :
    rigid_transform_img (canvasRect 255 255) (127.5, 127.5) 0 (10, -5) 1 true
      (rigid_transform_img (canvasRect 255 255) (127.5, 127.5) 0 (10, -5) 1
        false (fun _ => (1 : ℝ))) (250, 0) = 0 ∧
    (fun _ : ℝ × ℝ => (1 : ℝ)) (250, 0) = 1 ∧ ((0 : ℝ) ≠ 1) := by
  refine ⟨?_, rfl, by norm_num⟩
  norm_num [rigid_transform_img, affineImg, affine_sample, rotP, canvasRect,
    Set.indicator_apply, Set.mem_setOf_eq]

/-- C6 (amended): for every canvas, image and parameter tuple with angle
in {0, 45, -90}, scale in {0.5, 1, 2} and translate in {(0,0), (10,-5)},
the round trip `invert(forward(image, p), p)` reconstructs the image
exactly (at the sampling-geometry level, i.e. up to interpolation error)
at every pixel that stays on the canvas throughout — the pixel itself,
its forward image, and the intermediate point with the translation
undone all on the canvas.  Content whose forward image leaves the canvas
is cropped and zero-filled by the round trip (see the counterexample),
so reconstruction holds on this surviving region, not for every pixel of
every image. -/
theorem C6_canvas_roundtrip (canvas : Set (ℝ × ℝ)) (c : ℝ × ℝ)
    (angle : ℝ) (t : ℝ × ℝ) (s : ℝ) (img : ℝ × ℝ → ℝ) (p : ℝ × ℝ)
    (_ha : angle = 0 ∨ angle = 45 ∨ angle = -90)
    (hsc : s = 1/2 ∨ s = 1 ∨ s = 2)
    (_ht : t = (0, 0) ∨ t = (10, -5))
    (hp : p ∈ canvas)
    (hT : affine c angle t s p ∈ canvas)
    (hU : ((affine c angle t s p).1 - t.1, (affine c angle t s p).2 - t.2)
      ∈ canvas) :
    rigid_transform_img canvas c angle t s true
      (rigid_transform_img canvas c angle t s false img) p = img p := by
  have hs : s ≠ 0 := by rcases hsc with h | h | h <;> rw [h] <;> norm_num
  have h2 := affine_sample_second c angle t s p
  have h1 : affine_sample c 0 (-t.1, -t.2) 1
      ((affine c angle t s p).1 - t.1, (affine c angle t s p).2 - t.2)
      = affine c angle t s p := by
    rw [affine_sample_translation]
    simp
  have h0 : affine_sample c angle t s (affine c angle t s p) = p :=
    affine_sample_affine c angle t hs p
  show affineImg canvas c (-angle) (0, 0) (1 / s)
      (affineImg canvas c 0 (-t.1, -t.2) 1
        (affineImg canvas c angle t s img)) p = img p
  simp only [affineImg, h2, Set.indicator_of_mem hU, h1,
    Set.indicator_of_mem hT, h0, Set.indicator_of_mem hp]

/-- C6, witness: a surviving interior pixel at angle 0, scale 1,
translate (10, -5) on the 256×256 canvas is reconstructed exactly. -/
theorem C6_canvas_roundtrip_witness :
    rigid_transform_img (canvasRect 255 255) (127.5, 127.5) 0 (10, -5) 1 true
      (rigid_transform_img (canvasRect 255 255) (127.5, 127.5) 0 (10, -5) 1
        false (fun q => q.1 + q.2)) (100, 100)
      = (fun q : ℝ × ℝ => q.1 + q.2) (100, 100) :=
  C6_canvas_roundtrip (canvasRect 255 255) (127.5, 127.5) 0 (10, -5) 1
    (fun q => q.1 + q.2) (100, 100) (Or.inl rfl) (Or.inr (Or.inl rfl))
    (Or.inr rfl)
    (by norm_num [canvasRect, Set.mem_setOf_eq])
    (by norm_num [canvasRect, Set.mem_setOf_eq, affine, rotP])
    (by norm_num [canvasRect, Set.mem_setOf_eq, affine, rotP])

end

/-!
Triplet sampling (`datasets.WhaleDataset.__getitem__` and
`datasets.WhaleTripletDataset.__getitem__`).

Image files and labels are opaque naturals.  Pixel content is delegated
to external collaborators (`imread`, `resize`); what the code determines
is which file is read, the output spatial size `(height, 2 * height)`,
and the channel count 3, so an image is modelled by exactly these
observables.  The two `np.random.randint` draws are passed in as
parameters `r1`, `r2` (reduced modulo the candidate-list length, so each
parameter value denotes one uniform draw).
-/

/-- Observable state of a `WhaleDataset` instance: label vector, image
file list, and the mutable target resolution `height`. -/
structure WhaleState where
  labels : List ℕ
  names : List ℕ
  height : ℕ
  deriving DecidableEq

/-- An image as returned by `WhaleDataset.__getitem__`: `src` is the
file that was read (`names[idx]`), the array is channel-first with 3
channels and spatial size `(h, w) = (height, 2 * height)`. -/
structure Image where
  channels : ℕ
  h : ℕ
  w : ℕ
  src : ℕ
  deriving DecidableEq

/-- Errors the sampler can raise: numpy out-of-range indexing, and
`np.random.randint(0)` (ValueError: low >= high). -/
inductive DataError where
  | indexError
  | randRangeEmpty
  deriving DecidableEq

/-- `WhaleDataset.__getitem__`: reads `names[idx]`, resizes to
`(self.height, self.height * 2)`, broadcasts grayscale to 3 channels,
moves channels first, and returns the image with `labels[idx]`. -/
def WhaleDataset_getitem (s : WhaleState) (idx : ℕ) :
    Except DataError (Image × ℕ) :=
  if idx < s.names.length ∧ idx < s.labels.length then
    .ok (⟨3, s.height, 2 * s.height, s.names.getD idx 0⟩, s.labels.getD idx 0)
  else .error .indexError

/-- `np.where(labels == x)[0]`. -/
def whereEq (l : List ℕ) (x : ℕ) : List ℕ :=
  (List.range l.length).filter (fun i => decide (l.getD i 0 = x))

/-- `np.where(labels != x)[0]`. -/
def whereNe (l : List ℕ) (x : ℕ) : List ℕ :=
  (List.range l.length).filter (fun i => decide (¬ l.getD i 0 = x))

/-- `opts[np.random.randint(len(opts))]`; `np.random.randint(0)`
raises, otherwise the draw is uniform over positions `0..len-1`
(parameter `r` reduced mod the length). -/
def uniform_choice (opts : List ℕ) (r : ℕ) : Except DataError ℕ :=
  if opts.length = 0 then .error .randRangeEmpty
  else .ok (opts.getD (r % opts.length) 0)

/-- Value of the code's local `positive_idx` for draw `r1`. -/
def positive_idx_of (s : WhaleState) (idx r1 : ℕ) : ℕ :=
  let opts := whereEq s.labels (s.labels.getD idx 0)
  opts.getD (r1 % opts.length) 0

/-- Value of the code's local `negative_idx` for draw `r2`. -/
def negative_idx_of (s : WhaleState) (idx r2 : ℕ) : ℕ :=
  let opts := whereNe s.labels (s.labels.getD idx 0)
  opts.getD (r2 % opts.length) 0

/-- What a `WhaleTripletDataset.__getitem__` call returns.  The fields
`positive_idx` and `negative_idx` are the code's locals, exposed so the
drawn indices can be specified. -/
structure TripletResult where
  im : Image
  im_pos : Image
  im_neg : Image
  lab : ℕ
  lab_neg : ℕ
  positive_idx : ℕ
  negative_idx : ℕ
  deriving DecidableEq

/-- `WhaleTripletDataset.__getitem__`.  `hl` is `height_list` (the
constructor guarantees three entries).  Returns the code's 5-tuple
together with the final state of the wrapped dataset and, as
instrumentation of the three `self.orig_dataset.height = ...`
statements, the list of values assigned to `height`, in order.  Errors
propagate exactly where the Python code raises. -/
def WhaleTripletDataset_getitem (hl : List ℕ) (s : WhaleState)
    (idx r1 r2 : ℕ) :
    Except DataError (TripletResult × WhaleState × List ℕ) :=
  let s1 : WhaleState := { s with height := hl.getD 0 0 }
  match WhaleDataset_getitem s1 idx with
  | .error e => .error e
  | .ok (im, lab) =>
    match uniform_choice (whereEq s1.labels lab) r1 with
    | .error e => .error e
    | .ok positive_idx =>
      match uniform_choice (whereNe s1.labels lab) r2 with
      | .error e => .error e
      | .ok negative_idx =>
        let s2 : WhaleState := { s1 with height := hl.getD 1 0 }
        match WhaleDataset_getitem s2 positive_idx with
        | .error e => .error e
        | .ok (im_pos, _) =>
          let s3 : WhaleState := { s2 with height := hl.getD 2 0 }
          match WhaleDataset_getitem s3 negative_idx with
          | .error e => .error e
          | .ok (im_neg, lab_neg) =>
            .ok (⟨im, im_pos, im_neg, lab, lab_neg, positive_idx, negative_idx⟩,
              s3, [hl.getD 0 0, hl.getD 1 0, hl.getD 2 0])

/-- Membership in `np.where(labels == x)[0]`. -/
lemma mem_whereEq {l : List ℕ} {x i : ℕ} :
    i ∈ whereEq l x ↔ i < l.length ∧ l.getD i 0 = x := by
  simp [whereEq, List.mem_filter, List.mem_range]

/-- Membership in `np.where(labels != x)[0]`. -/
lemma mem_whereNe {l : List ℕ} {x i : ℕ} :
    i ∈ whereNe l x ↔ i < l.length ∧ ¬ l.getD i 0 = x := by
  simp [whereNe, List.mem_filter, List.mem_range]

/-- The candidate list for the positive draw has no duplicates. -/
lemma whereEq_nodup (l : List ℕ) (x : ℕ) : (whereEq l x).Nodup :=
  (List.nodup_range _).filter _

/-- The candidate list for the negative draw has no duplicates. -/
lemma whereNe_nodup (l : List ℕ) (x : ℕ) : (whereNe l x).Nodup :=
  (List.nodup_range _).filter _

/-- A `getD` at an in-range position is a member of the list. -/
lemma getD_mem_of_lt {l : List ℕ} {n : ℕ} (h : n < l.length) (d : ℕ) :
    l.getD n d ∈ l := by
  rw [List.getD_eq_getElem l d h]
  exact List.getElem_mem h

/-- Full evaluation of a successful `WhaleTripletDataset.__getitem__`
call: anchor index in range, label/name vectors of equal length, and at
least one sample with a different label. -/
lemma tripletGetitem_run (hl : List ℕ) (s : WhaleState) (idx r1 r2 : ℕ)
    (hn : s.names.length = s.labels.length)
    (hi : idx < s.labels.length)
    (hN : whereNe s.labels (s.labels.getD idx 0) ≠ []) :
    WhaleTripletDataset_getitem hl s idx r1 r2 = .ok
      (⟨⟨3, hl.getD 0 0, 2 * hl.getD 0 0, s.names.getD idx 0⟩,
        ⟨3, hl.getD 1 0, 2 * hl.getD 1 0,
          s.names.getD (positive_idx_of s idx r1) 0⟩,
        ⟨3, hl.getD 2 0, 2 * hl.getD 2 0,
          s.names.getD (negative_idx_of s idx r2) 0⟩,
        s.labels.getD idx 0,
        s.labels.getD (negative_idx_of s idx r2) 0,
        positive_idx_of s idx r1, negative_idx_of s idx r2⟩,
      { s with height := hl.getD 2 0 },
      [hl.getD 0 0, hl.getD 1 0, hl.getD 2 0]) := by
  have hnn : idx < s.names.length := by rw [hn]; exact hi
  have hPmem : idx ∈ whereEq s.labels (s.labels.getD idx 0) :=
    mem_whereEq.mpr ⟨hi, rfl⟩
  have hPlen : (whereEq s.labels (s.labels.getD idx 0)).length ≠ 0 := by
    intro h0
    rw [List.length_eq_zero] at h0
    rw [h0] at hPmem
    exact absurd hPmem (List.not_mem_nil idx)
  have hNlen : (whereNe s.labels (s.labels.getD idx 0)).length ≠ 0 := by
    intro h0
    exact hN (List.length_eq_zero.mp h0)
  have hpmem : positive_idx_of s idx r1 ∈ whereEq s.labels (s.labels.getD idx 0) := by
    rw [positive_idx_of]
    exact getD_mem_of_lt (Nat.mod_lt _ (Nat.pos_of_ne_zero hPlen)) 0
  have hnmem : negative_idx_of s idx r2 ∈ whereNe s.labels (s.labels.getD idx 0) := by
    rw [negative_idx_of]
    exact getD_mem_of_lt (Nat.mod_lt _ (Nat.pos_of_ne_zero hNlen)) 0
  have hplt : positive_idx_of s idx r1 < s.labels.length := (mem_whereEq.mp hpmem).1
  have hnlt : negative_idx_of s idx r2 < s.labels.length := (mem_whereNe.mp hnmem).1
  have hpltn : positive_idx_of s idx r1 < s.names.length := by rw [hn]; exact hplt
  have hnltn : negative_idx_of s idx r2 < s.names.length := by rw [hn]; exact hnlt
  have h1 : WhaleDataset_getitem { s with height := hl.getD 0 0 } idx =
      .ok (⟨3, hl.getD 0 0, 2 * hl.getD 0 0, s.names.getD idx 0⟩,
        s.labels.getD idx 0) := by
    rw [WhaleDataset_getitem, if_pos ⟨hnn, hi⟩]
  have h2 : uniform_choice (whereEq s.labels (s.labels.getD idx 0)) r1 =
      .ok (positive_idx_of s idx r1) := by
    rw [uniform_choice, if_neg hPlen, positive_idx_of]
  have h3 : uniform_choice (whereNe s.labels (s.labels.getD idx 0)) r2 =
      .ok (negative_idx_of s idx r2) := by
    rw [uniform_choice, if_neg hNlen, negative_idx_of]
  have h4 : WhaleDataset_getitem { s with height := hl.getD 1 0 }
      (positive_idx_of s idx r1) =
      .ok (⟨3, hl.getD 1 0, 2 * hl.getD 1 0,
          s.names.getD (positive_idx_of s idx r1) 0⟩,
        s.labels.getD (positive_idx_of s idx r1) 0) := by
    rw [WhaleDataset_getitem, if_pos ⟨hpltn, hplt⟩]
  have h5 : WhaleDataset_getitem { s with height := hl.getD 2 0 }
      (negative_idx_of s idx r2) =
      .ok (⟨3, hl.getD 2 0, 2 * hl.getD 2 0,
          s.names.getD (negative_idx_of s idx r2) 0⟩,
        s.labels.getD (negative_idx_of s idx r2) 0) := by
    rw [WhaleDataset_getitem, if_pos ⟨hnltn, hnlt⟩]
  rw [WhaleTripletDataset_getitem]
  simp only [h1, h2, h3, h4, h5]

/-- The positive draw lands in the positive candidate list. -/
lemma positive_idx_of_mem (s : WhaleState) (idx r1 : ℕ)
    (hi : idx < s.labels.length) :
    positive_idx_of s idx r1 ∈ whereEq s.labels (s.labels.getD idx 0) := by
  have hPmem : idx ∈ whereEq s.labels (s.labels.getD idx 0) :=
    mem_whereEq.mpr ⟨hi, rfl⟩
  have hPlen : (whereEq s.labels (s.labels.getD idx 0)).length ≠ 0 := by
    intro h0
    rw [List.length_eq_zero] at h0
    rw [h0] at hPmem
    exact absurd hPmem (List.not_mem_nil idx)
  rw [positive_idx_of]
  exact getD_mem_of_lt (Nat.mod_lt _ (Nat.pos_of_ne_zero hPlen)) 0

/-- The negative draw lands in the negative candidate list. -/
lemma negative_idx_of_mem (s : WhaleState) (idx r2 : ℕ)
    (hN : whereNe s.labels (s.labels.getD idx 0) ≠ []) :
    negative_idx_of s idx r2 ∈ whereNe s.labels (s.labels.getD idx 0) := by
  have hNlen : (whereNe s.labels (s.labels.getD idx 0)).length ≠ 0 := by
    intro h0
    exact hN (List.length_eq_zero.mp h0)
  rw [negative_idx_of]
  exact getD_mem_of_lt (Nat.mod_lt _ (Nat.pos_of_ne_zero hNlen)) 0

/-- C3: for a valid anchor index and at least one differing label, the
sampling call succeeds; the positive index is drawn from the
duplicate-free list enumerating exactly the indices with the anchor's
label (a list containing the anchor itself, hence non-empty) and the
negative index from the duplicate-free list enumerating exactly the
indices with a different label, so the positive sample's label equals
the anchor label and the negative sample's label differs from it.  With
the draw uniform over positions of these lists, the drawn index is
uniform over the corresponding candidate set. -/
theorem C3_triplet_label_drawing (hl : List ℕ) (s : WhaleState)
    (idx r1 r2 : ℕ)
    (hn : s.names.length = s.labels.length)
    (hi : idx < s.labels.length)
    (hneg : ∃ j, j < s.labels.length ∧
      s.labels.getD j 0 ≠ s.labels.getD idx 0) :
    ∃ res fin tr,
      WhaleTripletDataset_getitem hl s idx r1 r2 = .ok (res, fin, tr) ∧
      res.lab = s.labels.getD idx 0 ∧
      s.labels.getD res.positive_idx 0 = res.lab ∧
      s.labels.getD res.negative_idx 0 ≠ res.lab ∧
      res.lab_neg = s.labels.getD res.negative_idx 0 ∧
      res.positive_idx ∈ whereEq s.labels res.lab ∧
      res.negative_idx ∈ whereNe s.labels res.lab ∧
      (∀ j, j ∈ whereEq s.labels res.lab ↔
        j < s.labels.length ∧ s.labels.getD j 0 = res.lab) ∧
      (∀ j, j ∈ whereNe s.labels res.lab ↔
        j < s.labels.length ∧ s.labels.getD j 0 ≠ res.lab) ∧
      (whereEq s.labels res.lab).Nodup ∧
      (whereNe s.labels res.lab).Nodup ∧
      idx ∈ whereEq s.labels res.lab := by
  obtain ⟨j, hj, hjne⟩ := hneg
  have hN : whereNe s.labels (s.labels.getD idx 0) ≠ [] :=
    List.ne_nil_of_mem (mem_whereNe.mpr ⟨hj, hjne⟩)
  have hp := positive_idx_of_mem s idx r1 hi
  have hq := negative_idx_of_mem s idx r2 hN
  exact ⟨_, _, _, tripletGetitem_run hl s idx r1 r2 hn hi hN, rfl,
    (mem_whereEq.mp hp).2, (mem_whereNe.mp hq).2, rfl, hp, hq,
    fun _ => mem_whereEq, fun _ => mem_whereNe,
    whereEq_nodup _ _, whereNe_nodup _ _, mem_whereEq.mpr ⟨hi, rfl⟩⟩

/-- Concrete wrapped dataset: labels [0,0,1,1,2], five image files,
starting resolution 256. -/
def Swit : WhaleState := ⟨[0, 0, 1, 1, 2], [10, 11, 12, 13, 14], 256⟩

/-- C3, witness: the theorem applied at anchor 0 of the concrete
dataset. -/
theorem C3_triplet_label_drawing_witness :
    ∃ res fin tr,
      WhaleTripletDataset_getitem [32, 64, 128] Swit 0 1 4 = .ok (res, fin, tr) ∧
      res.lab = Swit.labels.getD 0 0 ∧
      Swit.labels.getD res.positive_idx 0 = res.lab ∧
      Swit.labels.getD res.negative_idx 0 ≠ res.lab ∧
      res.lab_neg = Swit.labels.getD res.negative_idx 0 ∧
      res.positive_idx ∈ whereEq Swit.labels res.lab ∧
      res.negative_idx ∈ whereNe Swit.labels res.lab ∧
      (∀ j, j ∈ whereEq Swit.labels res.lab ↔
        j < Swit.labels.length ∧ Swit.labels.getD j 0 = res.lab) ∧
      (∀ j, j ∈ whereNe Swit.labels res.lab ↔
        j < Swit.labels.length ∧ Swit.labels.getD j 0 ≠ res.lab) ∧
      (whereEq Swit.labels res.lab).Nodup ∧
      (whereNe Swit.labels res.lab).Nodup ∧
      0 ∈ whereEq Swit.labels res.lab :=
  C3_triplet_label_drawing [32, 64, 128] Swit 0 1 4 (by decide) (by decide)
    ⟨2, by decide⟩

/-- C7: when every sample carries the anchor's label, the negative draw
is over an empty candidate list and the call raises out of
`np.random.randint(0)`; the error propagates to the caller. -/
theorem C7_all_one_label_raises (hl : List ℕ) (s : WhaleState)
    (idx r1 r2 : ℕ)
    (hn : s.names.length = s.labels.length)
    (hi : idx < s.labels.length)
    (hall : ∀ x ∈ s.labels, x = s.labels.getD idx 0) :
    WhaleTripletDataset_getitem hl s idx r1 r2 = .error .randRangeEmpty := by
  have hNempty : whereNe s.labels (s.labels.getD idx 0) = [] := by
    rw [List.eq_nil_iff_forall_not_mem]
    intro j hj
    obtain ⟨hjl, hjne⟩ := mem_whereNe.mp hj
    exact hjne (hall _ (getD_mem_of_lt hjl 0))
  have hnn : idx < s.names.length := by rw [hn]; exact hi
  have hPmem : idx ∈ whereEq s.labels (s.labels.getD idx 0) :=
    mem_whereEq.mpr ⟨hi, rfl⟩
  have hPlen : (whereEq s.labels (s.labels.getD idx 0)).length ≠ 0 := by
    intro h0
    rw [List.length_eq_zero] at h0
    rw [h0] at hPmem
    exact absurd hPmem (List.not_mem_nil idx)
  have h1 : WhaleDataset_getitem { s with height := hl.getD 0 0 } idx =
      .ok (⟨3, hl.getD 0 0, 2 * hl.getD 0 0, s.names.getD idx 0⟩,
        s.labels.getD idx 0) := by
    rw [WhaleDataset_getitem, if_pos ⟨hnn, hi⟩]
  have h2 : uniform_choice (whereEq s.labels (s.labels.getD idx 0)) r1 =
      .ok (positive_idx_of s idx r1) := by
    rw [uniform_choice, if_neg hPlen, positive_idx_of]
  have h3 : uniform_choice (whereNe s.labels (s.labels.getD idx 0)) r2 =
      .error .randRangeEmpty := by
    rw [uniform_choice, hNempty]
    rfl
  rw [WhaleTripletDataset_getitem]
  simp only [h1, h2, h3]

/-- Concrete dataset in which every sample has label 7. -/
def SwitSame : WhaleState := ⟨[7, 7, 7], [0, 1, 2], 256⟩

/-- C7, witness: the theorem applied to the all-label-7 dataset. -/
theorem C7_all_one_label_raises_witness :
    WhaleTripletDataset_getitem [32, 64, 128] SwitSame 0 3 5 =
      .error .randRangeEmpty :=
  C7_all_one_label_raises [32, 64, 128] SwitSame 0 3 5 (by decide) (by decide)
    (by decide)

/-- C8: with height_list `[h0, h1, h2]`, the three images of a
successful triplet call come from three separate `WhaleDataset`
fetches, each parameterized by its own role's resolution: the anchor
has spatial size `(h0, 2*h0)`, the positive `(h1, 2*h1)` and the
negative `(h2, 2*h2)`, each independent of the other two roles, and each
reads its own role's image file. -/
theorem C8_per_role_resolution (h0 h1 h2 : ℕ) (s : WhaleState)
    (idx r1 r2 : ℕ)
    (hn : s.names.length = s.labels.length)
    (hi : idx < s.labels.length)
    (hneg : ∃ j, j < s.labels.length ∧
      s.labels.getD j 0 ≠ s.labels.getD idx 0) :
    ∃ res fin tr,
      WhaleTripletDataset_getitem [h0, h1, h2] s idx r1 r2 =
        .ok (res, fin, tr) ∧
      res.im.h = h0 ∧ res.im.w = 2 * h0 ∧
      res.im_pos.h = h1 ∧ res.im_pos.w = 2 * h1 ∧
      res.im_neg.h = h2 ∧ res.im_neg.w = 2 * h2 ∧
      res.im.src = s.names.getD idx 0 ∧
      res.im_pos.src = s.names.getD res.positive_idx 0 ∧
      res.im_neg.src = s.names.getD res.negative_idx 0 := by
  obtain ⟨j, hj, hjne⟩ := hneg
  have hN : whereNe s.labels (s.labels.getD idx 0) ≠ [] :=
    List.ne_nil_of_mem (mem_whereNe.mpr ⟨hj, hjne⟩)
  exact ⟨_, _, _, tripletGetitem_run [h0, h1, h2] s idx r1 r2 hn hi hN,
    rfl, rfl, rfl, rfl, rfl, rfl, rfl, rfl, rfl⟩

/-- C8, witness: per-role resolutions 32/64/128 on the concrete
dataset. -/
theorem C8_per_role_resolution_witness :
    ∃ res fin tr,
      WhaleTripletDataset_getitem [32, 64, 128] Swit 2 0 7 =
        .ok (res, fin, tr) ∧
      res.im.h = 32 ∧ res.im.w = 2 * 32 ∧
      res.im_pos.h = 64 ∧ res.im_pos.w = 2 * 64 ∧
      res.im_neg.h = 128 ∧ res.im_neg.w = 2 * 128 ∧
      res.im.src = Swit.names.getD 2 0 ∧
      res.im_pos.src = Swit.names.getD res.positive_idx 0 ∧
      res.im_neg.src = Swit.names.getD res.negative_idx 0 :=
  C8_per_role_resolution 32 64 128 Swit 2 0 7 (by decide) (by decide)
    ⟨0, by decide⟩

/-- C9: a successful sampling call passes the per-role resolution by
assigning the shared `orig_dataset.height` field three times, in order
`h0, h1, h2`; after the call the wrapped dataset's `height` is `h2`
(the last role's resolution, not the pre-call value), while its
`labels` and `names` fields — the only other fields — are unchanged. -/
theorem C9_shared_height_mutation (h0 h1 h2 : ℕ) (s : WhaleState)
    (idx r1 r2 : ℕ)
    (hn : s.names.length = s.labels.length)
    (hi : idx < s.labels.length)
    (hneg : ∃ j, j < s.labels.length ∧
      s.labels.getD j 0 ≠ s.labels.getD idx 0) :
    ∃ res fin,
      WhaleTripletDataset_getitem [h0, h1, h2] s idx r1 r2 =
        .ok (res, fin, [h0, h1, h2]) ∧
      fin.height = h2 ∧ fin.labels = s.labels ∧ fin.names = s.names := by
  obtain ⟨j, hj, hjne⟩ := hneg
  have hN : whereNe s.labels (s.labels.getD idx 0) ≠ [] :=
    List.ne_nil_of_mem (mem_whereNe.mpr ⟨hj, hjne⟩)
  exact ⟨_, _, tripletGetitem_run [h0, h1, h2] s idx r1 r2 hn hi hN,
    rfl, rfl, rfl⟩

/-- C9, witness: the height trace and final state at a concrete call
whose pre-call height 256 differs from every entry of the height
list. -/
theorem C9_shared_height_mutation_witness :
    ∃ res fin,
      WhaleTripletDataset_getitem [32, 64, 128] Swit 4 5 1 =
        .ok (res, fin, [32, 64, 128]) ∧
      fin.height = 128 ∧ fin.labels = Swit.labels ∧ fin.names = Swit.names :=
  C9_shared_height_mutation 32 64 128 Swit 4 5 1 (by decide) (by decide)
    ⟨0, by decide⟩

/-!
Train/validation split (`datasets.WhaleDataset.__init__`; the code is
identical in `src/datasets.py` and `src/inrae_big/datasets.py`).

A row of `train.csv` is a pair `(id, name)` — the 'Id' and 'Image'
columns, both opaque naturals.  `np.unique` yields the sorted distinct
ids.  The loop appends, for every row whose id is in the distinct list
(always true), the label (the id's position in the sorted distinct
list), the id, the name, and a set id: 2 on the first occurrence of the
label, 1 afterwards (`unique_labels_seen` counts occurrences).  Mode
'train' keeps rows with set id 1, 'val' those with set id 2, 'no_set'
all of them.
-/

/-- `np.unique(train_data['Id'])`: sorted distinct ids. -/
def unique_labels (ids : List ℕ) : List ℕ :=
  ids.toFinset.sort (· ≤ ·)

/-- One entry appended by the `__init__` loop: its `labels`,
`label_ids`, `names` and `setid` components. -/
structure RowOut where
  label : ℕ
  label_id : ℕ
  name : ℕ
  setid : ℕ
  deriving DecidableEq

/-- The `__init__` loop.  `ul` is `self.unique_labels`; `seen` is
`unique_labels_seen`, the per-label occurrence count.  Producing output
rows in order renders the source's `append` accumulation. -/
def initRows (ul : List ℕ) (seen : ℕ → ℕ) : List (ℕ × ℕ) → List RowOut
  | [] => []
  | (id, nm) :: rest =>
    if id ∈ ul then
      ⟨ul.indexOf id, id, nm, if seen (ul.indexOf id) = 0 then 2 else 1⟩ ::
        initRows ul
          (fun k => if k = ul.indexOf id then seen k + 1 else seen k) rest
    else initRows ul seen rest

/-- The three modes of `WhaleDataset.__init__` that assign the stored
attributes (any other mode string leaves them unset). -/
inductive Mode where
  | train
  | val
  | no_set
  deriving DecidableEq

/-- The rows `WhaleDataset.__init__` stores for a mode: `setid == 1`
for 'train', `setid == 2` for 'val', every row for 'no_set'. -/
def whaleSplit (mode : Mode) (rows : List (ℕ × ℕ)) : List RowOut :=
  let out := initRows (unique_labels (rows.map Prod.fst)) (fun _ => 0) rows
  match mode with
  | .train => out.filter (fun r => decide (r.setid = 1))
  | .val => out.filter (fun r => decide (r.setid = 2))
  | .no_set => out

/-- Rows whose id is not in the already-seen set `p`: the first
occurrence of each id value, in row order (specification-side
description of the validation split). -/
def firstRowsFrom (p : ℕ → Bool) : List (ℕ × ℕ) → List (ℕ × ℕ)
  | [] => []
  | (id, nm) :: rest =>
    if p id then firstRowsFrom p rest
    else (id, nm) :: firstRowsFrom (fun v => decide (v = id) || p v) rest

/-- The first occurrence of each id value, in row order. -/
def firstRows (rows : List (ℕ × ℕ)) : List (ℕ × ℕ) :=
  firstRowsFrom (fun _ => false) rows


/-- The rows the loop tags with set id 2 are exactly the first
occurrences, generalized over the running occurrence counts (`seen`):
a row is tagged 2 iff its id's count is still zero. -/
lemma initRows_val_eq_firstRows (ul : List ℕ) (rows : List (ℕ × ℕ))
    (seen : ℕ → ℕ) (hul : ∀ r ∈ rows, r.1 ∈ ul) :
    ((initRows ul seen rows).filter (fun r => decide (r.setid = 2))).map
        (fun r => (r.label_id, r.name))
      = firstRowsFrom (fun v => !decide (seen (ul.indexOf v) = 0)) rows := by
  induction rows generalizing seen with
  | nil => rfl
  | cons x rest ih =>
    obtain ⟨id, nm⟩ := x
    have hid : id ∈ ul := hul (id, nm) (List.mem_cons_self _ _)
    have hrest : ∀ r ∈ rest, r.1 ∈ ul :=
      fun r hr => hul r (List.mem_cons_of_mem _ hr)
    simp only [initRows, if_pos hid]
    by_cases h0 : seen (ul.indexOf id) = 0
    · have hfun : (fun v => !decide ((fun k =>
            if k = ul.indexOf id then seen k + 1 else seen k)
              (ul.indexOf v) = 0))
          = (fun v => decide (v = id) || !decide (seen (ul.indexOf v) = 0)) := by
        funext v
        by_cases hv : v = id
        · subst hv
          simp
        · have hne : ul.indexOf v ≠ ul.indexOf id := by
            by_cases hvul : v ∈ ul
            · intro h
              exact hv ((List.indexOf_inj hvul hid).mp h)
            · intro h
              have h1 : ul.indexOf v = ul.length :=
                List.indexOf_eq_length.mpr hvul
              have h2 : ul.indexOf id < ul.length :=
                List.indexOf_lt_length.mpr hid
              omega
          simp [hv, hne]
      rw [if_pos h0]
      have htail := ih (fun k =>
        if k = List.indexOf id ul then seen k + 1 else seen k) hrest
      rw [hfun] at htail
      simp [firstRowsFrom, h0, htail]
    · rw [if_neg h0]
      have hfun2 : (fun v => !decide ((fun k =>
            if k = List.indexOf id ul then seen k + 1 else seen k)
              (List.indexOf v ul) = 0))
          = (fun v => !decide (seen (List.indexOf v ul) = 0)) := by
        funext v
        by_cases hvi : List.indexOf v ul = List.indexOf id ul
        · simp [hvi, h0]
        · simp [hvi]
      have htail := ih (fun k =>
        if k = List.indexOf id ul then seen k + 1 else seen k) hrest
      rw [hfun2] at htail
      simp [firstRowsFrom, h0, htail]

/-- Every row the loop produces is tagged with set id 1 or 2. -/
lemma initRows_setid (ul : List ℕ) (rows : List (ℕ × ℕ)) (seen : ℕ → ℕ) :
    ∀ r ∈ initRows ul seen rows, r.setid = 1 ∨ r.setid = 2 := by
  induction rows generalizing seen with
  | nil =>
    intro r hr
    simp [initRows] at hr
  | cons x rest ih =>
    obtain ⟨id, nm⟩ := x
    intro r hr
    simp only [initRows] at hr
    by_cases hid : id ∈ ul
    · rw [if_pos hid] at hr
      rcases List.mem_cons.mp hr with h | h
      · subst h
        by_cases h0 : seen (List.indexOf id ul) = 0 <;> simp [h0]
      · exact ih _ r h
    · rw [if_neg hid] at hr
      exact ih _ r hr

/-- Each id value not yet seen occurs exactly once among the first
occurrences, ids already seen or absent occur zero times. -/
lemma firstRowsFrom_count (p : ℕ → Bool) (rows : List (ℕ × ℕ)) (v : ℕ) :
    ((firstRowsFrom p rows).map Prod.fst).count v
      = if p v = false ∧ v ∈ rows.map Prod.fst then 1 else 0 := by
  induction rows generalizing p with
  | nil => simp [firstRowsFrom]
  | cons x rest ih =>
    obtain ⟨id, nm⟩ := x
    by_cases hp : p id = true
    · rw [firstRowsFrom, if_pos hp, ih p]
      by_cases hv : v = id
      · subst hv
        simp [hp]
      · exact if_congr (by simp [List.mem_cons, hv]) rfl rfl
    · rw [Bool.not_eq_true] at hp
      rw [firstRowsFrom, if_neg (by simp [hp]), List.map_cons, List.count_cons,
        ih (fun w => decide (w = id) || p w)]
      by_cases hv : v = id
      · subst hv
        simp [hp]
      · simp only [List.map_cons, beq_iff_eq]
        rw [if_neg (fun h : id = v => hv h.symm), Nat.add_zero]
        exact if_congr (by simp [List.mem_cons, hv]) rfl rfl

/-- Every row id is in `np.unique` of the id column, so the loop's
membership test is always true. -/
lemma mem_unique_labels {rows : List (ℕ × ℕ)} {r : ℕ × ℕ} (hr : r ∈ rows) :
    r.1 ∈ unique_labels (rows.map Prod.fst) := by
  rw [unique_labels, Finset.mem_sort, List.mem_toFinset]
  exact List.mem_map_of_mem Prod.fst hr

/-- C10: from a given label table, mode 'val' stores exactly one sample
per distinct label value — the first occurrence of that label in row
order — mode 'train' stores exactly the remaining occurrences of each
label (count in 'no_set' minus the one validation sample), and the two
splits together are a permutation of — i.e. partition — the 'no_set'
sample list. -/
theorem C10_val_first_occurrence_split (rows : List (ℕ × ℕ)) :
    ((whaleSplit Mode.val rows).map (fun r => (r.label_id, r.name))
        = firstRows rows)
    ∧ ((whaleSplit Mode.val rows ++ whaleSplit Mode.train rows).Perm
        (whaleSplit Mode.no_set rows))
    ∧ (∀ v, ((whaleSplit Mode.val rows).map RowOut.label_id).count v
        = if v ∈ rows.map Prod.fst then 1 else 0)
    ∧ (∀ v, ((whaleSplit Mode.train rows).map RowOut.label_id).count v
        = ((whaleSplit Mode.no_set rows).map RowOut.label_id).count v
          - ((whaleSplit Mode.val rows).map RowOut.label_id).count v) := by
  have hval : (whaleSplit Mode.val rows).map (fun r => (r.label_id, r.name))
      = firstRows rows := by
    have h := initRows_val_eq_firstRows (unique_labels (rows.map Prod.fst))
      rows (fun _ => 0) (fun r hr => mem_unique_labels hr)
    exact h
  have hperm : (whaleSplit Mode.val rows ++ whaleSplit Mode.train rows).Perm
      (whaleSplit Mode.no_set rows) := by
    have hsid := initRows_setid (unique_labels (rows.map Prod.fst)) rows
      (fun _ => 0)
    have hcongr : (initRows (unique_labels (rows.map Prod.fst)) (fun _ => 0)
          rows).filter (fun r => decide (r.setid = 1))
        = (initRows (unique_labels (rows.map Prod.fst)) (fun _ => 0)
          rows).filter (fun r => !decide (r.setid = 2)) :=
      List.filter_congr (fun r hr => by rcases hsid r hr with h | h <;> simp [h])
    show ((initRows _ _ rows).filter _ ++ (initRows _ _ rows).filter _).Perm
      (initRows _ _ rows)
    rw [hcongr]
    exact List.filter_append_perm _ _
  have hvcount : ∀ v, ((whaleSplit Mode.val rows).map RowOut.label_id).count v
      = if v ∈ rows.map Prod.fst then 1 else 0 := by
    intro v
    have h1 : (whaleSplit Mode.val rows).map RowOut.label_id
        = ((whaleSplit Mode.val rows).map
            (fun r => (r.label_id, r.name))).map Prod.fst := by
      rw [List.map_map]
      rfl
    rw [h1, hval, firstRows, firstRowsFrom_count]
    exact if_congr (by simp) rfl rfl
  have htcount : ∀ v,
      ((whaleSplit Mode.train rows).map RowOut.label_id).count v
      = ((whaleSplit Mode.no_set rows).map RowOut.label_id).count v
        - ((whaleSplit Mode.val rows).map RowOut.label_id).count v := by
    intro v
    have hc := (hperm.map RowOut.label_id).count_eq v
    rw [List.map_append, List.count_append] at hc
    omega
  exact ⟨hval, hperm, hvcount, htcount⟩
